import Mathlib

/-!
Verification of the zip-archive HTTP filesystem adapter (`assets.go`):
the index builder `newZipFS`, the resolver `zipFS.Open`, helper
`zipFS.dirEntries`, and the handle operations `Read`, `Seek`, `Readdir`,
`Stat` of `zipHTTPFile`.  Strings are modelled as lists of characters;
Go map values are modelled as association lists looked up by key.
The Go standard-library path helpers used by the code
( `path.Clean`, `path.Dir`, `path.Base`, `path.Join`, and the
single-occurrence prefix/suffix trimming of package `strings` )
are embedded below with a `go` prefix on their names.
-/

namespace Supervisord

abbrev Str := List Char

/-- Strip one leading slash, as the code does with the `strings` helper
that removes the prefix "/" once when present. -/
def trimLeadSlash (s : Str) : Str :=
  if s.head? = some '/' then s.tail else s

/-- Strip one leading "./", mirroring the single-occurrence removal of
that two-character leading sequence. -/
def trimLeadDotSlash : Str → Str
  | '.' :: '/' :: rest => rest
  | s => s

/-- Strip one trailing slash when present. -/
def trimSuffixSlash (s : Str) : Str :=
  if s.getLast? = some '/' then s.dropLast else s

/-- Split a path at every slash, keeping empty segments, as
the `strings` split of Go does for a single-character separator. -/
def splitSlash : Str → List Str
  | [] => [[]]
  | c :: cs =>
    if c = '/' then [] :: splitSlash cs
    else
      match splitSlash cs with
      | [] => [[c]]
      | s :: rest => (c :: s) :: rest

/-- Join segments with slashes. -/
def joinSlash : List Str → Str
  | [] => []
  | [s] => s
  | s :: rest => s ++ '/' :: joinSlash rest

/-- One step of the lexical `path.Clean` algorithm over the segment stack:
skip empty and "." segments, let ".." pop the last poppable element
(or accumulate in a relative path), push any other segment. -/
def cleanStep (rooted : Bool) (st : List Str) (seg : Str) : List Str :=
  if seg = [] ∨ seg = ['.'] then st
  else if seg = ['.', '.'] then
    if st ≠ [] ∧ st.getLast? ≠ some ['.', '.'] then st.dropLast
    else if rooted then st
    else st ++ [['.', '.']]
  else st ++ [seg]

/-- Assemble the cleaned path from the rooted flag and the final segment
stack: an empty stack denotes the root for a rooted path and "." for a
relative one. -/
def stitch (rooted : Bool) (st : List Str) : Str :=
  if st = [] then (if rooted then ['/'] else ['.'])
  else (if rooted then ['/'] else []) ++ joinSlash st

/-- Process the segments of a path and assemble the cleaned result. -/
def cleanWith (rooted : Bool) (segs : List Str) : Str :=
  stitch rooted (segs.foldl (cleanStep rooted) [])

/-- Go `path.Clean`: shortest lexically equivalent path.  The empty path
cleans to ".". -/
def goClean (p : Str) : Str :=
  if p = [] then ['.']
  else cleanWith (decide (p.head? = some '/')) (splitSlash p)

/-- Everything up to and including the last slash; empty when the path
has no slash. -/
def takeThroughLastSlash (p : Str) : Str :=
  (p.reverse.dropWhile (fun c => !(c == '/'))).reverse

/-- Go `path.Dir`: clean of the portion up to and including the final
slash ( "." when the path has no slash ). -/
def goDir (p : Str) : Str := goClean (takeThroughLastSlash p)

/-- Go `path.Base`: last element of the path after trailing slashes are
removed; "." for the empty path, "/" for a path of only slashes. -/
def goBase (p : Str) : Str :=
  if p = [] then ['.']
  else
    let q := (p.reverse.dropWhile (fun c => c == '/')).reverse
    if q = [] then ['/']
    else (q.reverse.takeWhile (fun c => !(c == '/'))).reverse

/-- Go `path.Join` on two elements: empty elements are skipped, the rest
are joined with a slash and cleaned; all-empty input gives "". -/
def goJoin (a b : Str) : Str :=
  if a = [] ∧ b = [] then []
  else if a = [] then goClean b
  else goClean (a ++ '/' :: b)

/-- Lookup in an association list modelling a Go map. -/
def lookupM {α : Type} : List (Str × α) → Str → Option α
  | [], _ => none
  | (k', v) :: rest, k => if k' = k then some v else lookupM rest k

/-- Map update modelling assignment to a Go map key. -/
def setM {α : Type} : List (Str × α) → Str → α → List (Str × α)
  | [], k, v => [(k, v)]
  | (k', v') :: rest, k, v =>
    if k' = k then (k, v) :: rest else (k', v') :: setM rest k v

/-- One archive member descriptor: raw name, directory flag, decompressed
content, header size and modification time. -/
structure ZipEntry where
  rawName : Str
  isDir : Bool
  content : List Nat
  size : Int
  modTime : Int
deriving DecidableEq

/-- File metadata record, as exposed by `Stat` and directory listings. -/
structure FInfo where
  name : Str
  isDir : Bool
  size : Int
  modTime : Int
deriving DecidableEq

/-- The metadata of a zip file header: the displayed name is the base
name of the raw member name. -/
def entryInfo (e : ZipEntry) : FInfo :=
  ⟨goBase e.rawName, e.isDir, e.size, e.modTime⟩

/-- The index: `files` keyed by normalized file path, `dirs` mapping a
directory key to the list of registered child names. -/
structure ZipFS where
  files : List (Str × ZipEntry)
  dirs : List (Str × List Str)
deriving DecidableEq

/-- Normalization applied to each member name in `newZipFS`:
clean, then strip one leading "./", then one leading "/". -/
def normEntryName (raw : Str) : Str :=
  trimLeadSlash (trimLeadDotSlash (goClean raw))

/-- Force a trailing slash on a directory key. -/
def dirKeyOf (s : Str) : Str := trimSuffixSlash s ++ ['/']

/-- The ancestor-registration loop of `newZipFS` (lines 82-98): append
the base name of `name` under the key derived from `dir`, then move to
the parent of `dir`, stopping at "", "." or "/".  Recursion is driven
by a fuel bound large enough for every chain the loop can follow. -/
def parentLoop : Nat → List (Str × List Str) → Str → Str → List (Str × List Str)
  | 0, dirs, _, _ => dirs
  | fuel + 1, dirs, dir, name =>
    let key := if dir = [] then [] else trimSuffixSlash (trimLeadSlash dir) ++ ['/']
    let dirs' := setM dirs key ((lookupM dirs key).getD [] ++ [goBase name])
    if dir = [] ∨ dir = ['.'] ∨ dir = ['/'] then dirs'
    else
      let d := goDir dir
      parentLoop fuel dirs' (if d = ['.'] then [] else d) name

/-- Processing of one descriptor in the `newZipFS` loop: a directory
descriptor stores an empty child list under its key; a file descriptor
is stored in `files` and its ancestor chain is walked. -/
def procEntry (z : ZipFS) (e : ZipEntry) : ZipFS :=
  let name := normEntryName e.rawName
  if e.isDir then ⟨z.files, setM z.dirs (dirKeyOf name) []⟩
  else
    let d0 := goDir name
    ⟨setM z.files name e,
     parentLoop (name.length + 1) z.dirs (if d0 = ['.'] then [] else d0) name⟩

/-- `newZipFS`: fold the descriptor list into an index. -/
def newZipFS (es : List ZipEntry) : ZipFS := es.foldl procEntry ⟨[], []⟩

/-- `zipFS.dirEntries`: resolve each registered child name against
`files`; names not found there become synthetic directory records. -/
def dirEntries (z : ZipFS) (dirKey : Str) : List FInfo :=
  match lookupM z.dirs dirKey with
  | none => []
  | some names =>
    names.map (fun n =>
      match lookupM z.files (trimLeadSlash (goJoin (trimSuffixSlash dirKey) n)) with
      | some e => entryInfo e
      | none => ⟨n, true, 0, 0⟩)

/-- Error values the adapter can surface. -/
inductive GoErr where
  | notExist
  | invalid
  | eof
  | negPos
  | badWhence
deriving DecidableEq

/-- A `zipHTTPFile` handle: directory flag, stored name, materialized
data, lazily created reader position, header metadata, and the mutable
entry cursor of a directory listing. -/
structure ZHandle where
  isDir : Bool
  name : Str
  data : List Nat
  rdrPos : Option Int
  fi : Option FInfo
  entries : Option (List FInfo)
deriving DecidableEq

/-- Normalization performed at the top of `zipFS.Open`:
clean, then strip one leading slash. -/
def normPath (p : Str) : Str := trimLeadSlash (goClean p)

/-- Dispatch of `zipFS.Open` on the normalized name (lines 107-140):
root, explicit trailing slash, file lookup, directory lookup, not-found. -/
def zOpenNorm (z : ZipFS) (name : Str) : Except GoErr ZHandle :=
  if name = ['.'] ∨ name = [] then
    .ok ⟨true, [], [], none, none, some (dirEntries z [])⟩
  else if name.getLast? = some '/' then
    .ok ⟨true, dirKeyOf name, [], none, none, some (dirEntries z (dirKeyOf name))⟩
  else
    match lookupM z.files name with
    | some e => .ok ⟨false, goBase name, e.content, none, some (entryInfo e), none⟩
    | none =>
      if (lookupM z.dirs (dirKeyOf name)).isSome then
        .ok ⟨true, dirKeyOf name, [], none, none, some (dirEntries z (dirKeyOf name))⟩
      else .error .notExist

/-- `zipFS.Open`. -/
def zOpen (z : ZipFS) (name : Str) : Except GoErr ZHandle :=
  zOpenNorm z (normPath name)

/-- `zipHTTPFile.Read` with a caller buffer of length `bufLen`:
directories yield end-of-file; otherwise the lazily created reader
copies from its position and advances. -/
def zRead (h : ZHandle) (bufLen : Nat) : (List Nat × Option GoErr) × ZHandle :=
  if h.isDir then (([], some .eof), h)
  else
    let pos := h.rdrPos.getD 0
    if pos ≥ (h.data.length : Int) then (([], some .eof), { h with rdrPos := some pos })
    else
      let chunk := (h.data.drop pos.toNat).take bufLen
      ((chunk, none), { h with rdrPos := some (pos + chunk.length) })

/-- `zipHTTPFile.Seek`: directories yield end-of-file; otherwise the
reader seek of the `bytes` package computes the absolute position from
the whence selector, rejecting negative results. -/
def zSeek (h : ZHandle) (offset : Int) (whence : Nat) : (Int × Option GoErr) × ZHandle :=
  if h.isDir then ((0, some .eof), h)
  else
    let pos := h.rdrPos.getD 0
    if whence = 0 then
      if offset < 0 then ((0, some .negPos), { h with rdrPos := some pos })
      else ((offset, none), { h with rdrPos := some offset })
    else if whence = 1 then
      if pos + offset < 0 then ((0, some .negPos), { h with rdrPos := some pos })
      else ((pos + offset, none), { h with rdrPos := some (pos + offset) })
    else if whence = 2 then
      if (h.data.length : Int) + offset < 0 then ((0, some .negPos), { h with rdrPos := some pos })
      else (((h.data.length : Int) + offset, none), { h with rdrPos := some ((h.data.length : Int) + offset) })
    else ((0, some .badWhence), { h with rdrPos := some pos })

/-- `zipHTTPFile.Readdir` (lines 194-207). -/
def zReaddir (h : ZHandle) (count : Int) : Except GoErr (List FInfo × ZHandle) :=
  if h.isDir = false then .error .invalid
  else
    match h.entries with
    | none => .ok ([], h)
    | some es =>
      if count ≤ 0 ∨ count ≥ (es.length : Int) then .ok (es, h)
      else .ok (es.take count.toNat, { h with entries := some (es.drop count.toNat) })

/-- `zipHTTPFile.Stat` (lines 209-217). -/
def zStat (h : ZHandle) : FInfo :=
  if h.isDir then ⟨goBase (trimSuffixSlash h.name), true, 0, 0⟩
  else
    match h.fi with
    | some fi => fi
    | none => ⟨h.name, false, (h.data.length : Int), 0⟩

/-! Concrete fixtures used by the evaluation theorems and witnesses. -/

def sAtxt : Str := "a.txt".toList

def sBtxtName : Str := "b.txt".toList

def sXYZtxt : Str := "x/y/z.txt".toList

def sZtxt : Str := "z.txt".toList

def sX : Str := "x".toList

def sXSlash : Str := "x/".toList

def sXYSlash : Str := "x/y/".toList

def sABtxt : Str := "a/b.txt".toList

def sASlash : Str := "a/".toList

def sACtxt : Str := "a/c.txt".toList

def entA : ZipEntry := ⟨sAtxt, false, [104, 105], 2, 0⟩

def entB : ZipEntry := ⟨sBtxtName, false, [1, 2, 3], 3, 0⟩

def entXYZ : ZipEntry := ⟨sXYZtxt, false, [7, 8, 9], 3, 5⟩

def entAB : ZipEntry := ⟨sABtxt, false, [1], 1, 0⟩

def entADir : ZipEntry := ⟨sASlash, true, [], 0, 0⟩

def zA : ZipFS := newZipFS [entA]

def zAB : ZipFS := newZipFS [entA, entB]

def zXYZ : ZipFS := newZipFS [entXYZ]

def zFD : ZipFS := newZipFS [entAB, entADir]

def hRootA : ZHandle := ⟨true, [], [], none, none, some (dirEntries zA [])⟩

def hRootAB : ZHandle := ⟨true, [], [], none, none, some (dirEntries zAB [])⟩

def hAB1 : ZHandle := ⟨true, [], [], none, none, some ((dirEntries zAB []).drop 1)⟩

def hX : ZHandle := ⟨true, sXSlash, [], none, none, some (dirEntries zXYZ sXSlash)⟩

def hEmptyFile : ZHandle := ⟨false, [], [], none, none, none⟩

/-! Helper lemmas about the path-cleaning embedding. -/

theorem splitSlash_ne_nil (p : Str) : splitSlash p ≠ [] := by
  cases p with
  | nil => simp [splitSlash]
  | cons c cs =>
    simp only [splitSlash]
    split
    · simp
    · split <;> simp

theorem splitSlash_append_slash (p : Str) :
    splitSlash (p ++ ['/']) = splitSlash p ++ [[]] := by
  induction p with
  | nil => rfl
  | cons c cs ih =>
    by_cases hc : c = '/'
    · subst hc
      simp [splitSlash, ih]
    · rcases hsp : splitSlash cs with _ | ⟨s, rest⟩
      · exact absurd hsp (splitSlash_ne_nil cs)
      · simp [splitSlash, hc, ih, hsp]

theorem cleanStep_nil_seg (r : Bool) (st : List Str) : cleanStep r st [] = st := by
  simp [cleanStep]

theorem cleanWith_append_nil (r : Bool) (segs : List Str) :
    cleanWith r (segs ++ [[]]) = cleanWith r segs := by
  simp [cleanWith, List.foldl_append, cleanStep_nil_seg]

theorem goClean_append_slash (p : Str) (hp : p ≠ []) :
    goClean (p ++ ['/']) = goClean p := by
  have h1 : (p ++ ['/'] : Str) ≠ [] := by simp
  have hh : (p ++ ['/']).head? = p.head? := by
    cases p with
    | nil => exact absurd rfl hp
    | cons c cs => rfl
  simp only [goClean, if_neg h1, if_neg hp]
  rw [hh, splitSlash_append_slash, cleanWith_append_nil]

/-- Segments that may legally sit on the clean stack: nonempty and free
of slashes. -/
def goodSeg (s : Str) : Prop := s ≠ [] ∧ '/' ∉ s

theorem cleanStep_good (r : Bool) (st : List Str) (a : Str)
    (hst : ∀ s ∈ st, goodSeg s) (ha : '/' ∉ a) :
    ∀ s ∈ cleanStep r st a, goodSeg s := by
  unfold cleanStep
  split_ifs with h1 h2 h3 h4
  · exact hst
  · exact fun s hs => hst s (List.dropLast_subset _ hs)
  · exact hst
  · intro s hs
    rcases List.mem_append.mp hs with h | h
    · exact hst s h
    · rw [List.mem_singleton] at h
      subst h
      exact ⟨by simp, by decide⟩
  · intro s hs
    rcases List.mem_append.mp hs with h | h
    · exact hst s h
    · rw [List.mem_singleton] at h
      subst h
      exact ⟨fun hnil => h1 (Or.inl hnil), ha⟩

theorem foldl_cleanStep_good (r : Bool) (segs : List Str) :
    ∀ st : List Str, (∀ s ∈ st, goodSeg s) → (∀ s ∈ segs, '/' ∉ s) →
      ∀ s ∈ segs.foldl (cleanStep r) st, goodSeg s := by
  induction segs with
  | nil =>
    intro st hst _
    simpa using hst
  | cons a as ih =>
    intro st hst hsegs
    rw [List.foldl_cons]
    exact ih _ (cleanStep_good r st a hst (hsegs a (List.mem_cons_self a as)))
      (fun s hs => hsegs s (List.mem_cons_of_mem a hs))

theorem splitSlash_no_slash (p : Str) : ∀ s ∈ splitSlash p, '/' ∉ s := by
  induction p with
  | nil =>
    intro s hs
    simp [splitSlash] at hs
    subst hs
    simp
  | cons c cs ih =>
    intro s hs
    by_cases hc : c = '/'
    · subst hc
      simp only [splitSlash, if_pos rfl] at hs
      rcases List.mem_cons.mp hs with h | h
      · subst h; simp
      · exact ih s h
    · rcases hsp : splitSlash cs with _ | ⟨s', rest⟩
      · exact absurd hsp (splitSlash_ne_nil cs)
      · simp only [splitSlash, if_neg hc, hsp] at hs
        rcases List.mem_cons.mp hs with h | h
        · subst h
          intro hmem
          rcases List.mem_cons.mp hmem with h' | h'
          · exact hc h'.symm
          · exact ih s' (by rw [hsp]; exact List.mem_cons_self s' rest) h'
        · exact ih s (by rw [hsp]; exact List.mem_cons_of_mem s' h)

theorem exists_getLast?_of_ne_nil {α : Type} (l : List α) (h : l ≠ []) :
    ∃ a, l.getLast? = some a := by
  cases hl : l.getLast? with
  | none => exact absurd (List.getLast?_eq_none_iff.mp hl) h
  | some a => exact ⟨a, rfl⟩

theorem joinSlash_ne_nil (l : List Str) (hl : l ≠ []) (h : ∀ s ∈ l, goodSeg s) :
    joinSlash l ≠ [] := by
  match l with
  | [s] => simpa [joinSlash] using (h s (by simp)).1
  | s :: s' :: rest => simp [joinSlash]

theorem joinSlash_last : ∀ l : List Str, l ≠ [] → (∀ s ∈ l, goodSeg s) →
    (joinSlash l).getLast? ≠ some '/' := by
  intro l
  induction l with
  | nil => exact fun hl _ => absurd rfl hl
  | cons s rest ih =>
    intro _ h
    cases rest with
    | nil =>
      intro hc
      exact (h s (by simp)).2 (List.mem_of_getLast?_eq_some (by simpa [joinSlash] using hc))
    | cons s' rest' =>
      have hgood : ∀ x ∈ s' :: rest', goodSeg x := fun x hx => h x (List.mem_cons_of_mem s hx)
      have hjne := joinSlash_ne_nil (s' :: rest') (by simp) hgood
      have hlast := ih (by simp) hgood
      obtain ⟨a, ha⟩ := exists_getLast?_of_ne_nil _ hjne
      have hred : (joinSlash (s :: s' :: rest')).getLast? = some a := by
        show (s ++ '/' :: joinSlash (s' :: rest')).getLast? = some a
        rw [List.getLast?_append]
        have h2 : ('/' :: joinSlash (s' :: rest') : Str).getLast? = some a := by
          rw [show ('/' :: joinSlash (s' :: rest') : Str) = ['/'] ++ joinSlash (s' :: rest') from rfl,
            List.getLast?_append, ha]
          rfl
        rw [h2]
        rfl
      rw [hred]
      intro hc
      rw [ha] at hlast
      exact hlast hc

theorem stitch_last (r : Bool) (st : List Str) (hgood : ∀ s ∈ st, goodSeg s) :
    stitch r st = ['/'] ∨ (stitch r st).getLast? ≠ some '/' := by
  unfold stitch
  by_cases h0 : st = []
  · rw [if_pos h0]
    cases r with
    | false => right; decide
    | true => left; rfl
  · right
    rw [if_neg h0, List.getLast?_append]
    obtain ⟨a, ha⟩ := exists_getLast?_of_ne_nil _ (joinSlash_ne_nil st h0 hgood)
    have hlast := joinSlash_last st h0 hgood
    rw [ha, Option.or_some]
    intro hc
    rw [ha] at hlast
    exact hlast hc

theorem goClean_last (p : Str) :
    goClean p = ['/'] ∨ (goClean p).getLast? ≠ some '/' := by
  by_cases hp : p = []
  · right
    rw [hp]
    decide
  · simp only [goClean, if_neg hp, cleanWith]
    exact stitch_last _ _ (foldl_cleanStep_good _ _ [] (by simp) (splitSlash_no_slash p))

theorem trimLeadSlash_last (s : Str) (h1 : s.getLast? ≠ some '/')
    (h2 : trimLeadSlash s ≠ []) : (trimLeadSlash s).getLast? ≠ some '/' := by
  rcases s with _ | ⟨c, rest⟩
  · simp [trimLeadSlash] at h2
  · by_cases hc : c = '/'
    · subst hc
      have hr : rest ≠ [] := by simpa [trimLeadSlash] using h2
      have heq : trimLeadSlash ('/' :: rest) = rest := by simp [trimLeadSlash]
      rw [heq]
      obtain ⟨a, ha⟩ := exists_getLast?_of_ne_nil rest hr
      rw [ha]
      intro hcon
      apply h1
      rw [show ('/' :: rest : Str) = ['/'] ++ rest from rfl, List.getLast?_append, ha,
        Option.or_some]
      exact hcon
    · have heq : trimLeadSlash (c :: rest) = c :: rest := by
        simp [trimLeadSlash, hc]
      rw [heq]
      rw [heq] at h2
      simpa using h1

theorem normPath_last (p : Str) (h : normPath p ≠ []) :
    (normPath p).getLast? ≠ some '/' := by
  rcases goClean_last p with hc | hc
  · exact absurd (by rw [normPath, hc]; rfl) h
  · exact trimLeadSlash_last (goClean p) hc h

theorem trimSuffixSlash_of_ne (s : Str) (h : s.getLast? ≠ some '/') :
    trimSuffixSlash s = s := by
  rw [trimSuffixSlash, if_neg h]

theorem lookupM_setM_self {α : Type} (m : List (Str × α)) (k : Str) (v : α) :
    lookupM (setM m k v) k = some v := by
  induction m with
  | nil => simp [setM, lookupM]
  | cons kv rest ih =>
    obtain ⟨k', v'⟩ := kv
    by_cases h : k' = k
    · simp [setM, h, lookupM]
    · simp [setM, h, lookupM, ih]

theorem zRead_file (name : Str) (data : List Nat) (fi : Option FInfo) (pos : Int)
    (bufLen : Nat) :
    zRead ⟨false, name, data, some pos, fi, none⟩ bufLen =
      if pos ≥ (data.length : Int) then
        (([], some .eof), ⟨false, name, data, some pos, fi, none⟩)
      else
        (((data.drop pos.toNat).take bufLen, none),
          ⟨false, name, data, some (pos + ((data.drop pos.toNat).take bufLen).length), fi, none⟩) :=
  rfl

theorem zOpenNorm_eq (z : ZipFS) (n : Str) (hcond : ¬(n = ['.'] ∨ n = []))
    (hlast : n.getLast? ≠ some '/') :
    zOpenNorm z n =
      match lookupM z.files n with
      | some e => .ok ⟨false, goBase n, e.content, none, some (entryInfo e), none⟩
      | none =>
        if (lookupM z.dirs (dirKeyOf n)).isSome then
          .ok ⟨true, dirKeyOf n, [], none, none, some (dirEntries z (dirKeyOf n))⟩
        else .error .notExist := by
  unfold zOpenNorm
  rw [if_neg hcond, if_neg hlast]

/-! Claim theorems. -/

/-- C8: appending a trailing separator to any input path does not change
the outcome of Open; in particular, for every directory path present in
the children mapping, Open of the path with and without the trailing
slash produce identical results (same classification, same listing). -/
theorem c8_trailing_slash (z : ZipFS) (p : Str) :
    zOpen z (p ++ ['/']) = zOpen z p := by
  cases p with
  | nil => rfl
  | cons c cs =>
    have h := goClean_append_slash (c :: cs) (by simp)
    simp only [zOpen, normPath, h]

/-- C6 (amended): for every index and input path whose normalized form
is nonempty and not ".", Open resolves by the normalized name: a `files`
key yields a file handle, otherwise a `dirs` key at the name with "/"
appended yields a directory handle, otherwise Open returns the
not-found error.  (Paths normalizing to the root are the exception the
counterexample exhibits: they always yield the root directory handle.) -/
theorem c6_open_resolution (z : ZipFS) (p : Str)
    (h1 : normPath p ≠ []) (h2 : normPath p ≠ ['.']) :
    (lookupM z.files (normPath p) = none →
      lookupM z.dirs (normPath p ++ ['/']) = none →
      zOpen z p = Except.error GoErr.notExist) ∧
    (∀ e, lookupM z.files (normPath p) = some e →
      zOpen z p =
        Except.ok ⟨false, goBase (normPath p), e.content, none, some (entryInfo e), none⟩) ∧
    (∀ l, lookupM z.files (normPath p) = none →
      lookupM z.dirs (normPath p ++ ['/']) = some l →
      zOpen z p = Except.ok ⟨true, normPath p ++ ['/'], [], none, none,
        some (dirEntries z (normPath p ++ ['/']))⟩) := by
  have hlast := normPath_last p h1
  have hcond : ¬(normPath p = ['.'] ∨ normPath p = []) := not_or.mpr ⟨h2, h1⟩
  have hkey : dirKeyOf (normPath p) = normPath p ++ ['/'] := by
    rw [dirKeyOf, trimSuffixSlash_of_ne _ hlast]
  refine ⟨?_, ?_, ?_⟩
  · intro hf hd
    show zOpenNorm z (normPath p) = _
    rw [zOpenNorm_eq z _ hcond hlast, hf, hkey, hd]
    rfl
  · intro e hf
    show zOpenNorm z (normPath p) = _
    rw [zOpenNorm_eq z _ hcond hlast, hf]
  · intro l hf hd
    show zOpenNorm z (normPath p) = _
    rw [zOpenNorm_eq z _ hcond hlast, hf, hkey, hd]
    rfl

/-- C6 counterexample: for the archive holding only `a.txt`, the input
"/" normalizes to the empty string, which is a key of neither mapping
(even with "/" appended), yet Open does not return the not-found error:
it returns the root directory handle. -/
theorem c6_counterexample :
    lookupM zA.files (normPath ['/']) = none ∧
    lookupM zA.dirs (normPath ['/'] ++ ['/']) = none ∧
    zOpen zA ['/'] ≠ Except.error GoErr.notExist := by
  refine ⟨rfl, rfl, ?_⟩
  intro hc
  rw [show zOpen zA ['/'] = Except.ok hRootA from rfl] at hc
  exact Except.noConfusion hc

/-- C6 witness: a concrete absent path yields the not-found error. -/
theorem c6_open_resolution_witness :
    zOpen zA sACtxt = Except.error GoErr.notExist :=
  (c6_open_resolution zA sACtxt (by decide) (by decide)).1 rfl rfl

/-- C7: opening an archive member with decompressed content `b`, seeking
to offset `o` from the start (0 ≤ o ≤ length of `b`), then reading with
a buffer that covers the remainder returns exactly the suffix of `b`
from `o`. -/
theorem c7_seek_read_roundtrip (z : ZipFS) (p : Str) (e : ZipEntry) (o : Nat)
    (h1 : normPath p ≠ []) (h2 : normPath p ≠ ['.'])
    (hf : lookupM z.files (normPath p) = some e)
    (ho : o ≤ e.content.length) :
    ∃ h : ZHandle, zOpen z p = Except.ok h ∧ h.data = e.content ∧
      (zSeek h (o : Int) 0).1 = ((o : Int), none) ∧
      ((zRead ((zSeek h (o : Int) 0).2) e.content.length).1).1 = e.content.drop o := by
  have hlast := normPath_last p h1
  have hcond : ¬(normPath p = ['.'] ∨ normPath p = []) := not_or.mpr ⟨h2, h1⟩
  have hnn : ¬((o : Int) < 0) := by omega
  refine ⟨⟨false, goBase (normPath p), e.content, none, some (entryInfo e), none⟩, ?_, rfl, ?_, ?_⟩
  · show zOpenNorm z (normPath p) = _
    rw [zOpenNorm_eq z _ hcond hlast, hf]
  · simp [zSeek, hnn]
  · have hseek :
        (zSeek ⟨false, goBase (normPath p), e.content, none, some (entryInfo e), none⟩
          (o : Int) 0).2 =
        ⟨false, goBase (normPath p), e.content, some (o : Int), some (entryInfo e), none⟩ := by
      simp [zSeek, hnn]
    rw [hseek, zRead_file]
    rcases Nat.lt_or_ge o e.content.length with hlt | hge
    · rw [if_neg (by omega : ¬((o : Int) ≥ (e.content.length : Int)))]
      show (e.content.drop ((o : Int)).toNat).take e.content.length = e.content.drop o
      rw [Int.toNat_natCast]
      exact List.take_of_length_le (by simp)
    · have heq : o = e.content.length := le_antisymm ho hge
      subst heq
      rw [if_pos (by omega : ((e.content.length : Nat) : Int) ≥ (e.content.length : Int))]
      show ([] : List Nat) = e.content.drop e.content.length
      rw [List.drop_length]

/-- C7 witness: concrete archive, member `x/y/z.txt` with bytes
`[7, 8, 9]`, seek to offset 1, read the remainder `[8, 9]`. -/
theorem c7_seek_read_roundtrip_witness :
    ∃ h : ZHandle, zOpen zXYZ sXYZtxt = Except.ok h ∧ h.data = entXYZ.content ∧
      (zSeek h ((1 : Nat) : Int) 0).1 = (((1 : Nat) : Int), none) ∧
      ((zRead ((zSeek h ((1 : Nat) : Int) 0).2) entXYZ.content.length).1).1 =
        entXYZ.content.drop 1 :=
  c7_seek_read_roundtrip zXYZ sXYZtxt entXYZ 1 (by decide) (by decide) rfl (by decide)

/-- C9: Stat of every directory handle produced by Open reports a
directory with size 0, zero modification time, and the base name of the
stored directory key; the root key (the empty string) yields the
synthesized root name ".". -/
theorem c9_dir_stat (z : ZipFS) (p : Str) (h : ZHandle)
    (_hop : zOpen z p = Except.ok h) (hd : h.isDir = true) :
    zStat h = ⟨goBase (trimSuffixSlash h.name), true, 0, 0⟩ ∧
    (h.name = [] → zStat h = ⟨['.'], true, 0, 0⟩) := by
  constructor
  · rw [zStat, if_pos hd]
  · intro hn
    rw [zStat, if_pos hd, hn]
    rfl

/-- C9 witness: the handle Open returns for "x" stats as directory "x". -/
theorem c9_dir_stat_witness :
    zStat hX = ⟨goBase (trimSuffixSlash hX.name), true, 0, 0⟩ ∧
    (hX.name = [] → zStat hX = ⟨['.'], true, 0, 0⟩) :=
  c9_dir_stat zXYZ sX hX rfl rfl

/-- C10: every input path normalizing to the root ("" or ".") yields the
root directory handle regardless of the index contents, and for the
index built from an empty archive the root listing is empty rather than
Open failing with not-found. -/
theorem c10_root_open (z : ZipFS) (p : Str)
    (hr : normPath p = [] ∨ normPath p = ['.']) :
    zOpen z p = Except.ok ⟨true, [], [], none, none, some (dirEntries z [])⟩ ∧
    dirEntries (newZipFS []) [] = [] := by
  refine ⟨?_, rfl⟩
  show zOpenNorm z (normPath p) = _
  rw [zOpenNorm, if_pos (hr.elim Or.inr Or.inl)]

/-- C10 witness: Open of "/" on the empty archive succeeds with an empty
root listing. -/
theorem c10_root_open_witness :
    zOpen (newZipFS []) ['/'] =
      Except.ok ⟨true, [], [], none, none, some (dirEntries (newZipFS []) [])⟩ ∧
    dirEntries (newZipFS []) [] = [] :=
  c10_root_open (newZipFS []) ['/'] (by decide)

/-- C4 (amended): Read and Seek on every directory handle return 0
together with the end-of-file error: Read behaves exactly like an
ordinary empty stream at end-of-file and Seek reports position 0 with
the same end-of-file error, rather than failing with the
invalid-operation error. -/
theorem c4_dir_read_seek_eof (h : ZHandle) (hd : h.isDir = true)
    (n : Nat) (off : Int) (w : Nat) :
    (zRead h n).1 = ([], some GoErr.eof) ∧ (zSeek h off w).1 = (0, some GoErr.eof) := by
  constructor
  · rw [zRead, if_pos hd]
  · rw [zSeek, if_pos hd]

/-- C4 witness: the directory handle for "x". -/
theorem c4_dir_read_seek_eof_witness :
    (zRead hX 8).1 = ([], some GoErr.eof) ∧ (zSeek hX 3 0).1 = (0, some GoErr.eof) :=
  c4_dir_read_seek_eof hX rfl 8 3 0

/-- C4 counterexample: on the directory handle for "x", Read returns the
end-of-file error, which is not the invalid-operation error, and the
result is byte-for-byte the behavior of an ordinary empty file stream;
Seek likewise returns (0, end-of-file). -/
theorem c4_counterexample :
    zOpen zXYZ sX = Except.ok hX ∧
    (zRead hX 8).1 = ([], some GoErr.eof) ∧
    GoErr.eof ≠ GoErr.invalid ∧
    (zSeek hX 3 0).1 = (0, some GoErr.eof) ∧
    (zRead hEmptyFile 8).1 = (zRead hX 8).1 :=
  ⟨rfl, rfl, by decide, rfl, rfl⟩

/-- C5 (amended): processing a descriptor explicitly marked as a
directory unconditionally stores an empty child list under its
normalized key (forced to end with "/"), overwriting whatever children
were previously registered for that key. -/
theorem c5_dir_overwrite (z : ZipFS) (raw : Str) (content : List Nat) (sz mt : Int) :
    lookupM (procEntry z ⟨raw, true, content, sz, mt⟩).dirs
      (dirKeyOf (normEntryName raw)) = some [] := by
  show lookupM (setM z.dirs (dirKeyOf (normEntryName raw)) [])
    (dirKeyOf (normEntryName raw)) = some []
  exact lookupM_setM_self z.dirs (dirKeyOf (normEntryName raw)) []

/-- C5 counterexample: in an archive listing the file `a/b.txt` before
the explicit directory entry `a/`, the directory descriptor wipes the
children already registered under "a/": the final children list is
empty, not the untouched `[b.txt]` the claim requires. -/
theorem c5_counterexample :
    lookupM zFD.dirs sASlash = some [] ∧
    (some ([] : List Str) ≠ some [sBtxtName]) :=
  ⟨rfl, by decide⟩

/-- C1: evaluation of the index builder at the single-file archive
`x/y/z.txt`: every ancestor key receives the file's own base name
"z.txt" as its registered child, so the root lists "z.txt" instead of
"x" and "x/" lists "z.txt" instead of "y". -/
theorem c1_parent_registration_bug :
    lookupM zXYZ.dirs [] = some [sZtxt] ∧
    lookupM zXYZ.dirs sXSlash = some [sZtxt] ∧
    lookupM zXYZ.dirs sXYSlash = some [sZtxt] ∧
    sZtxt ≠ sX :=
  ⟨rfl, rfl, rfl, by decide⟩

/-- C2: evaluation of Readdir at a root handle with one remaining entry:
the call with count 0 returns all entries but hands back the handle
unchanged (the cursor is not emptied), so an immediately following call
on the returned handle yields the same nonempty listing again. -/
theorem c2_readdir_cursor_bug :
    zReaddir hRootA 0 = Except.ok (dirEntries zA [], hRootA) ∧
    dirEntries zA [] ≠ [] :=
  ⟨rfl, by decide⟩

/-- C3: evaluation of repeated Readdir with page size 1 over a two-entry
directory: the first call advances the cursor, but the second call (with
count ≥ remaining) returns the last entry while leaving the cursor
unchanged, so the handle is never exhausted and every further page
repeats that entry — concatenation of pages never settles to the
two-entry listing a single Readdir 0 returns. -/
theorem c3_pagination_bug :
    zReaddir hRootAB 1 = Except.ok ([entryInfo entA], hAB1) ∧
    zReaddir hAB1 1 = Except.ok ([entryInfo entB], hAB1) ∧
    hAB1.entries = some [entryInfo entB] ∧
    some [entryInfo entB] ≠ some ([] : List FInfo) ∧
    [entryInfo entA] ++ [entryInfo entB] ++ [entryInfo entB] ≠
      [entryInfo entA, entryInfo entB] :=
  ⟨rfl, rfl, rfl, by decide, by decide⟩

end Supervisord
